import Mathlib

/-!
Verification development for the alpkit key/value decoding core.

Rust strings are modelled as `List Char` (`Str`).  All byte-position
operations of the source (`find`, `split_at`, `split_once`) act here at
character granularity; on the character classes involved (ASCII operator
characters and separators) the two coincide, because the source always
splits at the position of a character found by a per-character predicate.

Modelled components:
  * `src/alpkit/src/dependency.rs` — `Op`, `Constraint`, `Dependency`
    parsing and formatting, and the `KeyValueLike` mapping projection.
  * `src/alpkit/src/internal/serde_key_value.rs` — the flat-pair record
    decoder: adjacency grouping, per-field value deserialization, error
    rewrapping and the missing-field check.
  * `src/alpkit/src/internal/key_value_vec_map.rs` — the map/sequence
    codec for dependency collections, including the bare-string case.
  * `src/alpkit/src/package/pkginfo.rs` — the `.PKGINFO` line producer
    and the `depend`/`install_if`/`triggers` pair rewriting.
-/

/-- Rust `&str` / `String`, modelled as a list of characters. -/
abbrev Str := List Char

/-- `is_op` from dependency.rs: characters that may start a version
constraint inside a dependency token. -/
def isOpChar (c : Char) : Bool :=
  c = '<' || c = '>' || c = '=' || c = '~'

/-- Whitespace as used by Rust `str::trim` (Unicode whitespace; on the
ASCII inputs of this development `Char.isWhitespace` coincides). -/
def isWsChar (c : Char) : Bool :=
  c.isWhitespace

/-- Rust `str::trim`: drop leading and trailing whitespace. -/
def trimList (l : Str) : Str :=
  ((l.dropWhile isWsChar).reverse.dropWhile isWsChar).reverse

/-- Rust `str::split_once(c)`: split at the first occurrence of the
character `c`, returning the parts before and after it. -/
def splitOnceChar (c : Char) : Str → Option (Str × Str)
  | [] => none
  | x :: xs =>
    if x = c then some ([], xs)
    else (splitOnceChar c xs).map (fun p => (x :: p.1, p.2))

/-- Rust `str::split_once(sep)` for a multi-character separator: split at
the first occurrence of the substring `sep`. -/
def splitOnceStr (sep : Str) : Str → Option (Str × Str)
  | [] => if sep.isPrefixOf ([] : Str) then some ([], []) else none
  | x :: xs =>
    if sep.isPrefixOf (x :: xs) then some ([], (x :: xs).drop sep.length)
    else (splitOnceStr sep xs).map (fun p => (x :: p.1, p.2))

instance {ε α : Type} [DecidableEq ε] [DecidableEq α] : DecidableEq (Except ε α)
  | .ok a, .ok b => decidable_of_iff (a = b) (by simp)
  | .ok _, .error _ => isFalse (fun h => Except.noConfusion h)
  | .error _, .ok _ => isFalse (fun h => Except.noConfusion h)
  | .error a, .error b => decidable_of_iff (a = b) (by simp)

/-- `ConstraintParseError` from dependency.rs; carries the offending text. -/
structure ConstraintParseError where
  s : Str
deriving DecidableEq, Repr

/-- The constraint operator bitmask (`#[bitmask(u8)] enum Op`):
Equal = 1, Less = 2, Greater = 4, Fuzzy = 8. -/
structure Op where
  bits : Nat
deriving DecidableEq, Repr

/-- `Op::Equal`. -/
def Op.Equal : Op := ⟨1⟩

/-- `Op::Less`. -/
def Op.Less : Op := ⟨2⟩

/-- `Op::Greater`. -/
def Op.Greater : Op := ⟨4⟩

/-- `Op::Fuzzy`. -/
def Op.Fuzzy : Op := ⟨8⟩

/-- Bitwise OR of two operator masks (`|` of bitmask-enum). -/
def Op.or (a b : Op) : Op := ⟨a.bits ||| b.bits⟩

/-- `Op::none()` of bitmask-enum: the empty mask. -/
def Op.none : Op := ⟨0⟩

/-- `Op::all()` of bitmask-enum: OR of all defined flags. -/
def Op.all : Op := ⟨15⟩

/-- `Op::Checksum` = `Less | Greater`. -/
def Op.Checksum : Op := Op.Less.or Op.Greater

/-- `Op::Any` = all bits. -/
def Op.Any : Op := Op.all

/-- `contains` of bitmask-enum: all bits of `b` are set in `a`. -/
def Op.contains (a b : Op) : Bool := a.bits &&& b.bits == b.bits

/-- `is_all` of bitmask-enum: every defined flag bit is set. -/
def Op.is_all (a : Op) : Bool := a.contains Op.all

/-- One iteration of the character loop in `Op::from_str`; `l` is the
whole input, used as the error payload. -/
def Op.addChar (l : Str) (flags : Op) (c : Char) : Except ConstraintParseError Op :=
  if c = '=' then .ok (flags.or Op.Equal)
  else if c = '<' then .ok (flags.or Op.Less)
  else if c = '>' then .ok (flags.or Op.Greater)
  else if c = '~' then .ok (flags.or (Op.Fuzzy.or Op.Equal))
  else if c = '*' then .ok (flags.or Op.Any)
  else .error ⟨l⟩

/-- `Op::from_str`: reject the empty string and strings longer than two
characters, then OR together the flags of each character. -/
def Op.from_str (l : Str) : Except ConstraintParseError Op :=
  if l.isEmpty ∨ 2 < l.length then .error ⟨l⟩
  else l.foldlM (Op.addChar l) Op.none

/-- `Display for Op`: `*` when all bits are set, else the canonical
`~`, `>`, `<`, `=` rendering (`=` suppressed under Fuzzy). -/
def Op.toStr (o : Op) : Str :=
  if o.is_all then ['*']
  else (if o.contains Op.Fuzzy then ['~'] else [])
    ++ (if o.contains Op.Greater then ['>'] else [])
    ++ (if o.contains Op.Less then ['<'] else [])
    ++ (if o.contains Op.Equal && !(o.contains Op.Fuzzy) then ['='] else [])

/-- `Constraint` from dependency.rs. -/
structure Constraint where
  op : Op
  version : Str
deriving DecidableEq, Repr

/-- `Constraint::from_str`: split at the first non-operator character,
trim both halves, fail if either is empty, then parse the operator. -/
def Constraint.from_str (l : Str) : Except ConstraintParseError Constraint :=
  if l.all isOpChar then .error ⟨l⟩
  else
    let op := trimList (l.takeWhile isOpChar)
    let version := trimList (l.dropWhile isOpChar)
    if op.isEmpty ∨ version.isEmpty then .error ⟨l⟩
    else (Op.from_str op).map (fun o => ⟨o, version⟩)

/-- `Display for Constraint`: operator directly followed by version. -/
def Constraint.toStr (c : Constraint) : Str :=
  c.op.toStr ++ c.version

/-- `Dependency` from dependency.rs. -/
structure Dependency where
  name : Str
  constraint : Option Constraint
  conflict : Bool
  repo_pin : Option Str
deriving DecidableEq, Repr

/-- `Dependency::from_str`: split off an optional `@pin`, split at the
first operator character, parse the constraint, strip a leading `!`. -/
def Dependency.from_str (s : Str) : Except ConstraintParseError Dependency :=
  let pinSplit := match splitOnceChar '@' s with
    | some p => (p.1, some p.2)
    | Option.none => (s, Option.none)
  let s' := pinSplit.1
  let namePart := s'.takeWhile (fun c => !isOpChar c)
  let rest := s'.dropWhile (fun c => !isOpChar c)
  let constraintE : Except ConstraintParseError (Option Constraint) :=
    if rest.isEmpty then .ok Option.none
    else (Constraint.from_str rest).map some
  constraintE.map (fun constraint =>
    if namePart.head? = some '!' then ⟨namePart.tail, constraint, true, pinSplit.2⟩
    else ⟨namePart, constraint, false, pinSplit.2⟩)

/-- `Display for Dependency`: `!`(conflict) + name + constraint + `@pin`. -/
def Dependency.toStr (d : Dependency) : Str :=
  (if d.conflict then ['!'] else [])
    ++ d.name
    ++ (match d.constraint with
        | some c => c.toStr
        | Option.none => [])
    ++ (match d.repo_pin with
        | some p => '@' :: p
        | Option.none => [])

/-- `KeyValueLike::to_key_value for Dependency`. -/
def Dependency.to_key_value (d : Dependency) : Str × Str :=
  (d.name,
    match d.constraint, d.conflict with
    | some c, true => '!' :: (c.op.toStr ++ ' ' :: c.version)
    | some c, false => c.op.toStr ++ ' ' :: c.version
    | Option.none, true => ['!']
    | Option.none, false => ['*'])

/-- `KeyValueLike::from_key_value for Dependency`. -/
def Dependency.from_key_value (key value : Str) : Except ConstraintParseError Dependency :=
  if value.head? = some '!' then
    if value.tail = [] then .ok ⟨key, Option.none, true, Option.none⟩
    else (Constraint.from_str value.tail).map (fun c => ⟨key, some c, true, Option.none⟩)
  else if value = ['*'] then .ok ⟨key, Option.none, false, Option.none⟩
  else (Constraint.from_str value).map (fun c => ⟨key, some c, false, Option.none⟩)

/-! ## serde_key_value.rs — the flat-pair record decoder -/

/-- `Error` from serde_key_value.rs.  The boxed source errors are kept as
their display strings. -/
inductive KvError where
  | MissingField (name : Str)
  | InvalidField (cause : Str) (name : Str)
  | Other (msg : Str)
  | Internal (cause : Str)
deriving DecidableEq, Repr

/-- The raw value handed to a field's seed by
`KeyValueDeserializer::next_value_seed`: a single string for a lone key,
or the ordered run of values of contiguous equal keys. -/
inductive RawValue where
  | scalar (v : Str)
  | seq (vs : List Str)
deriving DecidableEq, Repr

/-- Builds the `RawValue` of one adjacency group: the first value plus
the (possibly empty) rest of its contiguous run. -/
def RawValue.ofRun (v : Str) (rest : List Str) : RawValue :=
  match rest with
  | [] => .scalar v
  | _ => .seq (v :: rest)

/-- Inner loop of the adjacency grouping of `next_value_seed`:
accumulates the contiguous run of pairs whose key equals `k` (the run's
values collected in reverse in `run`), then starts the next group. -/
def groupAux (k v : Str) (run : List Str) : List (Str × Str) → List (Str × RawValue)
  | [] => [(k, RawValue.ofRun v run.reverse)]
  | (k2, v2) :: rest =>
    if k2 = k then groupAux k v (v2 :: run) rest
    else (k, RawValue.ofRun v run.reverse) :: groupAux k2 v2 [] rest

/-- Adjacency grouping of the whole pair stream, as performed by repeated
`next_key_seed`/`next_value_seed` calls: contiguous equal-key pairs
become one `seq` group, isolated keys one `scalar` group. -/
def groupPairs : List (Str × Str) → List (Str × RawValue)
  | [] => []
  | (k, v) :: rest => groupAux k v [] rest

/-- Display string of `ConstraintParseError`
(`invalid version constraint: '{0}'`). -/
def ConstraintParseError.message (e : ConstraintParseError) : Str :=
  "invalid version constraint: '".toList ++ e.s ++ "'".toList

/-- Rust integer `from_str` (as invoked by `forward_parsed_values!`):
optional sign, decimal digits, range check against `[lo, hi]`.  The
minus sign is only recognised for signed target types (`lo < 0`). -/
def rustParseInt (lo hi : Int) (s : Str) : Except Str Int :=
  match s with
  | [] => .error "cannot parse integer from empty string".toList
  | _ :: _ =>
    let signDigits : Bool × Str :=
      match s with
      | '+' :: d :: ds => (true, d :: ds)
      | '-' :: d :: ds => if lo < 0 then (false, d :: ds) else (true, s)
      | _ => (true, s)
    let digits := signDigits.2
    if digits.isEmpty ∨ ¬ digits.all Char.isDigit then
      .error "invalid digit found in string".toList
    else
      let n : Nat := digits.foldl (fun a c => a * 10 + (c.toNat - '0'.toNat)) 0
      let v : Int := if signDigits.1 then (n : Int) else -(n : Int)
      if v < lo then .error "number too small to fit in target type".toList
      else if hi < v then .error "number too large to fit in target type".toList
      else .ok v

/-- Decoding a `Dependencies` collection from a list of self-contained
token strings: each element is parsed by `Dependency::from_str`; a parse
failure surfaces as `de::Error::custom`, i.e. `Error::Other`. -/
def Dependencies.fromValues (vs : List Str) : Except KvError (List Dependency) :=
  match vs.mapM Dependency.from_str with
  | .ok ds => .ok ds
  | .error e => .error (.Other e.message)

/-- `KeyValueVecMapVisitor` driven by the serde_key_value `Value`
deserializer: a scalar goes through `visit_str`, which wraps it as a
one-element sequence (the self-describing-format gap); a sequence is
decoded element-wise. -/
def Dependencies.deserializeRaw : RawValue → Except KvError (List Dependency)
  | .scalar v => Dependencies.fromValues [v]
  | .seq vs => Dependencies.fromValues vs

/-- The shape of a target record field, as fixed by the Rust struct
declaration: plain string, optional string, bounded integer, optional
bounded integer, dependency collection, or list of strings. -/
inductive FieldTy where
  | str
  | optStr
  | num (lo hi : Int)
  | optNum (lo hi : Int)
  | deps
  | strings
deriving DecidableEq, Repr

/-- A decoded field value.  `noneV` is the value of an absent optional
field. -/
inductive FieldVal where
  | str (s : Str)
  | num (n : Int)
  | deps (ds : List Dependency)
  | strings (ss : List Str)
  | noneV
deriving DecidableEq, Repr

/-- Error message of serde's `invalid_type` when a sequence arrives at a
scalar-typed field. -/
def invalidTypeMsg : Str := "invalid type: sequence, expected a scalar".toList

/-- Deserializes one grouped raw value at a field of declared shape `ty`,
following the `Value`/`SeqDeserializer` behaviour of serde_key_value.rs:
a list-typed field accepts a scalar by wrapping it into a one-element
sequence (`Value::deserialize_seq`); a scalar-typed field rejects a
sequence with a type error; integers go through Rust `parse`, whose
failure is `Error::Internal`. -/
def decodeValue : FieldTy → RawValue → Except KvError FieldVal
  | .str, .scalar v => .ok (.str v)
  | .str, .seq _ => .error (.Other invalidTypeMsg)
  | .optStr, .scalar v => .ok (.str v)
  | .optStr, .seq _ => .error (.Other invalidTypeMsg)
  | .num lo hi, .scalar v =>
    match rustParseInt lo hi v with
    | .ok n => .ok (.num n)
    | .error e => .error (.Internal e)
  | .num _ _, .seq _ => .error (.Other invalidTypeMsg)
  | .optNum lo hi, .scalar v =>
    match rustParseInt lo hi v with
    | .ok n => .ok (.num n)
    | .error e => .error (.Internal e)
  | .optNum _ _, .seq _ => .error (.Other invalidTypeMsg)
  | .deps, raw => (Dependencies.deserializeRaw raw).map .deps
  | .strings, .scalar v => .ok (.strings [v])
  | .strings, .seq vs => .ok (.strings vs)

/-- A field of the target record: serde name, aliases, declared shape,
and the default used when the key is absent (`none` = required). -/
structure FieldSpec where
  name : Str
  aliases : List Str
  ty : FieldTy
  dflt : Option FieldVal
deriving DecidableEq, Repr

/-- The derived field-identifier deserialization: the first field whose
name or alias matches the key; `none` is serde's `__ignore`. -/
def fieldForKey (specs : List FieldSpec) (k : Str) : Option FieldSpec :=
  specs.find? (fun f => k = f.name || f.aliases.contains k)

/-- The error rewrapping of `next_value_seed` (serde_key_value.rs
lines 168–172): `Internal` and `Other` causes become `InvalidField`
naming the input key. -/
def rewrapErr (key : Str) : KvError → KvError
  | .Internal c => .InvalidField c key
  | .Other m => .InvalidField m key
  | e => e

/-- Partial record state: fields already assigned, by field name. -/
abbrev FieldState := List (Str × FieldVal)

/-- Lookup in the partial record state. -/
def FieldState.lookupF (st : FieldState) (n : Str) : Option FieldVal :=
  (st.find? (fun p => p.1 = n)).map (·.2)

/-- The derived `visit_map` loop over adjacency groups: unknown keys are
ignored, a second group for an already-set field is serde's
duplicate-field error, and each value error is rewrapped to name the
offending key. -/
def visitGroups (specs : List FieldSpec) : FieldState → List (Str × RawValue) → Except KvError FieldState
  | st, [] => .ok st
  | st, (k, raw) :: rest =>
    match fieldForKey specs k with
    | Option.none => visitGroups specs st rest
    | some f =>
      if (st.lookupF f.name).isSome then
        .error (.Other ("duplicate field ".toList ++ f.name))
      else
        match (decodeValue f.ty raw).mapError (rewrapErr k) with
        | .error e => .error e
        | .ok v => visitGroups specs (st ++ [(f.name, v)]) rest

/-- The post-loop completion of the derived deserializer: fields in
declaration order, defaults for absent optional fields, and
`Error::missing_field` for the first absent required field. -/
def finishFields (specs : List FieldSpec) (st : FieldState) : Except KvError (List (Str × FieldVal)) :=
  match specs with
  | [] => .ok []
  | f :: rest =>
    match st.lookupF f.name with
    | some v => (finishFields rest st).map (fun acc => (f.name, v) :: acc)
    | Option.none =>
      match f.dflt with
      | some d => (finishFields rest st).map (fun acc => (f.name, d) :: acc)
      | Option.none => .error (.MissingField f.name)

/-- `from_ordered_pairs`: run the grouping/field loop, then the
missing-field completion. -/
def from_ordered_pairs (specs : List FieldSpec) (pairs : List (Str × Str)) : Except KvError (List (Str × FieldVal)) :=
  (visitGroups specs [] (groupPairs pairs)).bind (finishFields specs)

/-- Strict lexicographic order on strings, as compared by Rust
`sort_by_key` on `&str` (byte order coincides with scalar-value order
under UTF-8). -/
def strLt : Str → Str → Bool
  | [], [] => false
  | [], _ :: _ => true
  | _ :: _, [] => false
  | a :: as', b :: bs => if a = b then strLt as' bs else decide (a < b)

/-- Stable insertion of a pair into a key-sorted list: the new element
goes after existing equal keys. -/
def insertKV (x : Str × Str) : List (Str × Str) → List (Str × Str)
  | [] => [x]
  | y :: ys => if strLt y.1 x.1 then y :: insertKV x ys else x :: y :: ys

/-- Stable sort of the pair list by key, as performed by
`pairs.sort_by_key(|kv| kv.0)` (Rust's sort is stable, and a stable
key-sort has a unique result, so any stable algorithm models it). -/
def sortByKey : List (Str × Str) → List (Str × Str)
  | [] => []
  | x :: xs => insertKV x (sortByKey xs)

/-- `from_pairs`: stable-sort by key, then decode in order. -/
def from_pairs (specs : List FieldSpec) (pairs : List (Str × Str)) : Except KvError (List (Str × FieldVal)) :=
  from_ordered_pairs specs (sortByKey pairs)

/-! ## pkginfo.rs — the `.PKGINFO` producer and record -/

/-- `PkgInfoError` from pkginfo.rs. -/
inductive PkgInfoError where
  | Decode (e : KvError)
  | Syntax (lno : Nat) (line : Str)
deriving DecidableEq, Repr

/-- u16 bounds. -/
def u16Max : Int := 65535

/-- The field list of the derived `Deserialize for PkgInfo`, in struct
declaration order.  Required = no serde default and not an `Option`
type; `depends` carries the `depend` alias; `usize` is 64-bit. -/
def pkgInfoFields : List FieldSpec :=
  [ ⟨"maintainer".toList, [], .optStr, some .noneV⟩,
    ⟨"pkgname".toList, [], .str, Option.none⟩,
    ⟨"pkgver".toList, [], .str, Option.none⟩,
    ⟨"pkgdesc".toList, [], .str, Option.none⟩,
    ⟨"url".toList, [], .str, Option.none⟩,
    ⟨"arch".toList, [], .str, Option.none⟩,
    ⟨"license".toList, [], .str, Option.none⟩,
    ⟨"depends".toList, ["depend".toList], .deps, some (.deps [])⟩,
    ⟨"conflicts".toList, [], .deps, some (.deps [])⟩,
    ⟨"install_if".toList, [], .deps, some (.deps [])⟩,
    ⟨"provides".toList, [], .deps, some (.deps [])⟩,
    ⟨"provider_priority".toList, [], .optNum 0 u16Max, some .noneV⟩,
    ⟨"replaces".toList, [], .deps, some (.deps [])⟩,
    ⟨"replaces_priority".toList, [], .optNum 0 u16Max, some .noneV⟩,
    ⟨"triggers".toList, [], .strings, some (.strings [])⟩,
    ⟨"origin".toList, [], .str, Option.none⟩,
    ⟨"commit".toList, [], .optStr, some .noneV⟩,
    ⟨"builddate".toList, [], .num (-(2 ^ 63)) (2 ^ 63 - 1), Option.none⟩,
    ⟨"packager".toList, [], .str, Option.none⟩,
    ⟨"size".toList, [], .num 0 (2 ^ 64 - 1), Option.none⟩,
    ⟨"datahash".toList, [], .str, Option.none⟩ ]

/-- Split a string at every occurrence of character `c` (Rust
`str::split(c)`). -/
def splitAllChar (c : Char) : Str → List Str
  | [] => [[]]
  | x :: xs =>
    if x = c then [] :: splitAllChar c xs
    else
      match splitAllChar c xs with
      | g :: gs => (x :: g) :: gs
      | [] => [[x]]

/-- Rust `str::lines`: split at `\n`; every segment terminated by `\n`
has one trailing `\r` stripped, while the final unterminated segment is
kept verbatim (and dropped when empty, so a trailing terminator yields
no extra line). -/
def rustLines (s : Str) : List Str :=
  let ls := splitAllChar '\n' s
  let terminated := ls.dropLast.map
    (fun l => if l.getLast? = some '\r' then l.dropLast else l)
  match ls.getLast? with
  | some [] => terminated
  | some last => terminated ++ [last]
  | Option.none => terminated

/-- The `" = "` separator of `.PKGINFO` lines. -/
def sepEq : Str := " = ".toList

/-- One line of `parse_key_value` (pkginfo.rs lines 193–203): skip empty
lines and lines starting with `#`; split the rest at the first `" = "`;
a line without the separator is a 1-based-numbered syntax error. -/
def parseLine (lno : Nat) (line : Str) : Option (Except PkgInfoError (Str × Str)) :=
  if line.isEmpty then Option.none
  else if line.head? = some '#' then Option.none
  else
    match splitOnceStr sepEq line with
    | some kv => some (.ok kv)
    | Option.none => some (.error (.Syntax (lno + 1) line))

/-- `parse_key_value`: enumerate the lines and filter-map `parseLine`. -/
def parse_key_value (s : Str) : List (Except PkgInfoError (Str × Str)) :=
  (rustLines s).enum.filterMap (fun p => parseLine p.1 p.2)

/-- Rust `char::is_ascii_whitespace`. -/
def isAsciiWs (c : Char) : Bool :=
  c = ' ' || c = '\t' || c = '\n' || c = '\x0c' || c = '\r'

/-- Accumulating loop of `split_ascii_whitespace` (`cur` holds the
current word reversed). -/
def splitWordsAux (cur : Str) : Str → List Str
  | [] => if cur.isEmpty then [] else [cur.reverse]
  | c :: cs =>
    if isAsciiWs c then
      if cur.isEmpty then splitWordsAux [] cs
      else cur.reverse :: splitWordsAux [] cs
    else splitWordsAux (c :: cur) cs

/-- Rust `str::split_ascii_whitespace` as a word list. -/
def splitWords (s : Str) : List Str := splitWordsAux [] s

/-- The pair rewriting of `PkgInfo::parse`: `install_if`/`triggers`
values are split into whitespace-separated words; a `depend` value with
a leading `!` becomes a `conflicts` pair with the `!` stripped,
otherwise a `depends` pair. -/
def rewritePair (kv : Str × Str) : List (Str × Str) :=
  if kv.1 = "install_if".toList ∨ kv.1 = "triggers".toList then
    (splitWords kv.2).map (fun w => (kv.1, w))
  else if kv.1 = "depend".toList then
    match kv.2 with
    | '!' :: rest => [("conflicts".toList, rest)]
    | _ => [("depends".toList, kv.2)]
  else [kv]

/-- The `try_fold` of `PkgInfo::parse`: rewrite each produced pair and
bail out at the first producer error. -/
def collectPairs : List (Except PkgInfoError (Str × Str)) → Except PkgInfoError (List (Str × Str))
  | [] => .ok []
  | .error e :: _ => .error e
  | .ok kv :: rest => (collectPairs rest).map (fun acc => rewritePair kv ++ acc)

/-- The decoded `.PKGINFO` record: field name to decoded value, complete
in declaration order. -/
abbrev PkgRecord := List (Str × FieldVal)

/-- `PkgInfo::parse`: produce and rewrite the pairs, then run the sorted
flat-pair decode. -/
def PkgInfo.parse (s : Str) : Except PkgInfoError PkgRecord :=
  (collectPairs (parse_key_value s)).bind (fun pairs =>
    (from_pairs pkgInfoFields pairs).mapError PkgInfoError.Decode)

/-- The `depends` field of a decoded record. -/
def PkgRecord.depends (r : PkgRecord) : List Dependency :=
  match r.find? (fun p => p.1 = "depends".toList) with
  | some (_, FieldVal.deps ds) => ds
  | _ => []

/-- The `conflicts` field of a decoded record. -/
def PkgRecord.conflicts (r : PkgRecord) : List Dependency :=
  match r.find? (fun p => p.1 = "conflicts".toList) with
  | some (_, FieldVal.deps ds) => ds
  | _ => []

/-! ## Auxiliary predicates used by the claim statements -/

/-- Whether an `Except` value is a success. -/
def exceptIsOk {ε α : Type} : Except ε α → Bool
  | .ok _ => true
  | .error _ => false

/-- The parse alphabet of `Op::from_str`: `=`, `<`, `>`, `~`, `*`. -/
def opAlpha (c : Char) : Bool :=
  c = '=' || c = '<' || c = '>' || c = '~' || c = '*'

/-- The character class of the PROVIDER validation regex of
internal/regex.rs (`[a-zA-Z0-9_.+\-:/\[\]]`). -/
def providerChar (c : Char) : Bool :=
  c.isAlphanum || c = '_' || c = '.' || c = '+' || c = '-' || c = ':' ||
    c = '/' || c = '[' || c = ']'

/-- The character class of the PKGVER_MAYBE_REL validation regex of
internal/regex.rs (`[0-9a-z._-]`, lowercase letters and digits with
separators). -/
def versionChar (c : Char) : Bool :=
  c.isDigit || c.isLower || c = '.' || c = '_' || c = '-'

/-- The operators a serialized `Constraint` may carry: the image of
`Op::from_str` on the 1–2 character runs over the constraint-operator
alphabet `[<>=~]{1,2}` (the shape required by the DEP_CONSTRAINT and
PROVIDER_WITH_CONSTRAINT regexes of internal/regex.rs, and by the §3
invariant that the operator occupies a run of operator characters).
These are `=`, `<`, `<=`, `>`, `>=`, `><`, `~`, `~<`, `~>`. -/
def constraintOps : List Op :=
  [⟨1⟩, ⟨2⟩, ⟨3⟩, ⟨4⟩, ⟨5⟩, ⟨6⟩, ⟨9⟩, ⟨11⟩, ⟨13⟩]

/-- A valid constraint: operator from `constraintOps`, version non-empty
over the PKGVER character class. -/
def Constraint.valid (c : Constraint) : Bool :=
  constraintOps.contains c.op && !c.version.isEmpty && c.version.all versionChar

/-- A valid dependency: name non-empty over the PROVIDER character
class, and a valid constraint when present (`repo_pin` and `conflict`
are unconstrained). -/
def Dependency.valid (d : Dependency) : Bool :=
  !d.name.isEmpty && d.name.all providerChar &&
    (match d.constraint with
     | some c => c.valid
     | Option.none => true)

/-- Whether the key `k` selects the record field named `n` (directly or
through an alias). -/
def keyNamesField (specs : List FieldSpec) (k n : Str) : Bool :=
  match fieldForKey specs k with
  | some f => f.name = n
  | Option.none => false

/-- The first field, in declaration order, that is required (no serde
default) and has no corresponding key in the input pairs. -/
def firstMissingRequired (specs : List FieldSpec) (pairs : List (Str × Str)) : Option Str :=
  (specs.find? (fun f =>
    f.dflt.isNone && !(pairs.any (fun kv => keyNamesField specs kv.1 f.name)))).map (·.name)

/-- A `.PKGINFO` line skipped by the producer: empty or a `#` comment. -/
def skipLine (l : Str) : Bool :=
  l.isEmpty || l.head? == some '#'

/-- A `.PKGINFO` line that triggers the producer's syntax error: not
skipped and without the `" = "` separator. -/
def isBadLine (l : Str) : Bool :=
  !(skipLine l) && (splitOnceStr sepEq l).isNone

example : Op.from_str ">=".toList = .ok (Op.Greater.or Op.Equal) := by decide

example : Op.toStr (Op.Less.or Op.Equal) = "<=".toList := by decide

example : Constraint.from_str "= 1.2.3".toList = .ok ⟨Op.Equal, "1.2.3".toList⟩ := by decide

example : Dependency.from_str "ruby>=3.0".toList
    = .ok ⟨"ruby".toList, some ⟨Op.Greater.or Op.Equal, "3.0".toList⟩, false, Option.none⟩ := by
  decide

example : Dependency.from_str "!sample-legacy".toList
    = .ok ⟨"sample-legacy".toList, Option.none, true, Option.none⟩ := by decide

example : Dependency.from_str "foo@testing".toList
    = .ok ⟨"foo".toList, Option.none, false, some "testing".toList⟩ := by decide

/-! ## Claim theorems -/

/-- C2: for each of the 10 valid operator strings `=`, `~`, `>`, `>=`,
`~>`, `<`, `<=`, `~<`, `><`, `*`, parsing with `Op::from_str` and then
formatting with `Display` yields the original string. -/
theorem op_parse_format_identity :
    (["=", "~", ">", ">=", "~>", "<", "<=", "~<", "><", "*"].all
      (fun s => decide ((Op.from_str s.toList).map Op.toStr = .ok s.toList))) = true := by
  decide

/-- C3: three contiguous pairs with the same key group into the ordered
sequence `[v1, v2, v3]`, and a single pair for a sequence-typed field
still decodes to the one-element list `[v1]`, because the field's
declared shape (here `FieldTy.strings`) decides scalar versus sequence. -/
theorem adjacency_grouping_sequence_field (k v1 v2 v3 : Str) :
    groupPairs [(k, v1), (k, v2), (k, v3)] = [(k, .seq [v1, v2, v3])]
    ∧ decodeValue .strings (.seq [v1, v2, v3]) = .ok (.strings [v1, v2, v3])
    ∧ groupPairs [(k, v1)] = [(k, .scalar v1)]
    ∧ decodeValue .strings (.scalar v1) = .ok (.strings [v1]) := by
  refine ⟨?_, rfl, rfl, rfl⟩
  simp [groupPairs, groupAux, RawValue.ofRun]

/-- C7: when the transport supplies a single bare string for a
dependency collection, the decode treats it as a one-element sequence
and yields the collection containing the parsed dependency. -/
theorem bare_string_as_singleton_seq (v : Str) (d : Dependency)
    (h : Dependency.from_str v = .ok d) :
    Dependencies.deserializeRaw (.scalar v) = .ok [d] := by
  simp [Dependencies.deserializeRaw, Dependencies.fromValues, List.mapM, List.mapM.loop, h]

/-- Witness for C7 at the concrete input `ruby>=3.0`. -/
theorem bare_string_as_singleton_seq_witness :
    Dependency.from_str "ruby>=3.0".toList
      = .ok ⟨"ruby".toList, some ⟨Op.Greater.or Op.Equal, "3.0".toList⟩, false, Option.none⟩
    ∧ Dependencies.deserializeRaw (.scalar "ruby>=3.0".toList)
      = .ok [⟨"ruby".toList, some ⟨Op.Greater.or Op.Equal, "3.0".toList⟩, false, Option.none⟩] :=
  ⟨by decide, bare_string_as_singleton_seq _ _ (by decide)⟩

/-- C4 counterexample: the input `[("size", "abc")]` leaves the required
field `pkgname` without a corresponding key, yet the decode fails with
`InvalidField "size"` (the malformed present value is hit first), not
with `MissingField`. -/
theorem missing_field_not_always_reported :
    from_ordered_pairs pkgInfoFields [("size".toList, "abc".toList)]
      = .error (.InvalidField "invalid digit found in string".toList "size".toList)
    ∧ pkgInfoFields.any (fun f => decide (f.name = "pkgname".toList) && f.dflt.isNone) = true
    ∧ [("size".toList, "abc".toList)].any
        (fun kv => keyNamesField pkgInfoFields kv.1 "pkgname".toList) = false := by
  refine ⟨by decide, by decide, by decide⟩

/-- The `.PKGINFO` input exhibiting C10's failing case: the `depend`
value `!!bar` is routed to `conflicts` with one `!` stripped, leaving a
value that itself starts with `!`. -/
def pkgInfoDoubleNegInput : Str :=
  ("pkgname = foo\npkgver = 1.0-r0\npkgdesc = d\nurl = http://x\narch = x86_64\n" ++
   "license = MIT\norigin = foo\nbuilddate = 1\npackager = p\nsize = 1\n" ++
   "datahash = abc\ndepend = !!bar\ndepend = baz\n").toList

/-- C10: evaluation at the failing input.  `PkgInfo::parse` succeeds,
`depend = baz` lands in `depends` with `conflict = false`, but
`depend = !!bar` lands in `conflicts` as a dependency whose `conflict`
flag is `true` — contradicting the pkginfo.rs doc comment that the
`conflict` field of every entry of `conflicts` is always `false`. -/
theorem pkginfo_double_negation_conflict_flag :
    (PkgInfo.parse pkgInfoDoubleNegInput).map PkgRecord.conflicts
      = .ok [⟨"bar".toList, Option.none, true, Option.none⟩]
    ∧ (PkgInfo.parse pkgInfoDoubleNegInput).map PkgRecord.depends
      = .ok [⟨"baz".toList, Option.none, false, Option.none⟩]
    ∧ (PkgInfo.parse pkgInfoDoubleNegInput).map
        (fun r => (PkgRecord.conflicts r).all (fun d => !d.conflict)) = .ok false := by
  refine ⟨by decide, by decide, by decide⟩

/-! ## Characterization of `Op::from_str` on short inputs -/

/-- The flag mask contributed by one accepted character of
`Op::from_str` (`~` contributes Fuzzy|Equal, `*` all bits). -/
def Op.charFlag (c : Char) : Op :=
  if c = '=' then ⟨1⟩
  else if c = '<' then ⟨2⟩
  else if c = '>' then ⟨4⟩
  else if c = '~' then ⟨9⟩
  else if c = '*' then ⟨15⟩
  else ⟨0⟩

theorem Op.none_or (f : Op) : Op.none.or f = f := by
  cases f
  simp [Op.or, Op.none]

theorem Op.addChar_eq (l : Str) (x : Op) (c : Char) :
    Op.addChar l x c = if opAlpha c then .ok (x.or (Op.charFlag c)) else .error ⟨l⟩ := by
  have h9 : Op.Fuzzy.or Op.Equal = (⟨9⟩ : Op) := by decide
  unfold Op.addChar Op.charFlag opAlpha
  split_ifs <;> simp_all [h9, Op.Equal, Op.Less, Op.Greater, Op.Any, Op.all]

theorem Op.from_str_single (a : Char) :
    Op.from_str [a] = if opAlpha a then .ok (Op.charFlag a) else .error ⟨[a]⟩ := by
  have : Op.from_str [a] = Op.addChar [a] Op.none a := by
    simp [Op.from_str, List.foldlM]
  rw [this, Op.addChar_eq, Op.none_or]

theorem Op.from_str_double (a b : Char) :
    Op.from_str [a, b] =
      if opAlpha a && opAlpha b then .ok ((Op.charFlag a).or (Op.charFlag b))
      else .error ⟨[a, b]⟩ := by
  have h1 : Op.from_str [a, b]
      = (Op.addChar [a, b] Op.none a).bind (fun x => Op.addChar [a, b] x b) := by
    simp [Op.from_str, List.foldlM]
    rfl
  rw [h1]
  simp only [Op.addChar_eq]
  by_cases ha : opAlpha a = true <;> by_cases hb : opAlpha b = true <;>
    simp [ha, hb, Except.bind, Op.none_or]

theorem Op.from_str_long (a b c : Char) (t : Str) :
    Op.from_str (a :: b :: c :: t) = .error ⟨a :: b :: c :: t⟩ := by
  have : 2 < (a :: b :: c :: t).length := by simp
  simp [Op.from_str, this]

theorem Op.charFlag_mem_pos (c : Char) (h : opAlpha c = true) :
    Op.charFlag c ∈ ([⟨1⟩, ⟨2⟩, ⟨4⟩, ⟨9⟩, ⟨15⟩] : List Op) := by
  unfold opAlpha at h
  unfold Op.charFlag
  split_ifs <;> simp_all

/-- Every successful `Op::from_str` result is a bitwise OR of one or two
character flags (used to finitely enumerate reachable operator values). -/
theorem Op.from_str_ok_shape (l : Str) (o : Op) (h : Op.from_str l = .ok o) :
    ∃ x ∈ ([⟨1⟩, ⟨2⟩, ⟨4⟩, ⟨9⟩, ⟨15⟩] : List Op),
      o = x ∨ ∃ y ∈ ([⟨1⟩, ⟨2⟩, ⟨4⟩, ⟨9⟩, ⟨15⟩] : List Op), o = x.or y := by
  match l with
  | [] =>
    rw [show Op.from_str [] = .error ⟨[]⟩ from by decide] at h
    exact Except.noConfusion h
  | [a] =>
    rw [Op.from_str_single] at h
    split_ifs at h with ha
    · injection h with h2
      exact ⟨Op.charFlag a, Op.charFlag_mem_pos a ha, Or.inl h2.symm⟩
  | [a, b] =>
    rw [Op.from_str_double] at h
    split_ifs at h with hab
    · rw [Bool.and_eq_true] at hab
      injection h with h2
      exact ⟨Op.charFlag a, Op.charFlag_mem_pos a hab.1,
        Or.inr ⟨Op.charFlag b, Op.charFlag_mem_pos b hab.2, h2.symm⟩⟩
  | a :: b :: c :: t =>
    rw [Op.from_str_long] at h
    exact Except.noConfusion h

theorem Op.from_str_ok_ne_none (l : Str) (o : Op) (h : Op.from_str l = .ok o) :
    o ≠ Op.none := by
  obtain ⟨x, hx, hxo⟩ := Op.from_str_ok_shape l o h
  rcases hxo with rfl | ⟨y, hy, rfl⟩
  · fin_cases hx <;> decide
  · fin_cases hx <;> fin_cases hy <;> decide

/-- C9: every parseable operator has Equal set whenever Fuzzy is set, so
no operator text denotes Fuzzy alone; yet the Fuzzy-only mask formats as
`~`, which re-parses to Fuzzy|Equal, a different value — format-then-
parse is not the identity outside the parse-reachable masks. -/
theorem fuzzy_implies_equal :
    (∀ s o, Op.from_str s = .ok o →
      o.contains Op.Fuzzy = true → o.contains Op.Equal = true)
    ∧ (∀ s : Str, Op.from_str s ≠ .ok Op.Fuzzy)
    ∧ Op.toStr Op.Fuzzy = "~".toList
    ∧ Op.from_str (Op.toStr Op.Fuzzy) = .ok (Op.Fuzzy.or Op.Equal)
    ∧ Op.Fuzzy.or Op.Equal ≠ Op.Fuzzy := by
  have main : ∀ s o, Op.from_str s = .ok o →
      o.contains Op.Fuzzy = true → o.contains Op.Equal = true := by
    intro s o h hf
    obtain ⟨x, hx, hxo⟩ := Op.from_str_ok_shape s o h
    rcases hxo with rfl | ⟨y, hy, rfl⟩
    · fin_cases hx <;> revert hf <;> decide
    · fin_cases hx <;> fin_cases hy <;> revert hf <;> decide
  refine ⟨main, ?_, by decide, by decide, by decide⟩
  intro s h
  have := main s Op.Fuzzy h (by decide)
  exact absurd this (by decide)

/-- Witness for C9 at the concrete input `~`. -/
theorem fuzzy_implies_equal_witness :
    Op.from_str "~".toList = .ok (Op.Fuzzy.or Op.Equal)
    ∧ (Op.Fuzzy.or Op.Equal).contains Op.Equal = true :=
  ⟨by decide,
    fuzzy_implies_equal.1 "~".toList (Op.Fuzzy.or Op.Equal) (by decide) (by decide)⟩

/-- C6: `Op::from_str` rejects the empty string, `?`, any string with a
character outside the operator alphabet, and any string of three or more
characters: it succeeds exactly on 1–2 characters drawn from
`{=, <, >, ~, *}`. -/
theorem op_parse_acceptance :
    Op.from_str [] = .error ⟨[]⟩
    ∧ Op.from_str "?".toList = .error ⟨"?".toList⟩
    ∧ ∀ s : Str, exceptIsOk (Op.from_str s)
        = (decide (1 ≤ s.length) && decide (s.length ≤ 2) && s.all opAlpha) := by
  refine ⟨by decide, by decide, ?_⟩
  intro s
  match s with
  | [] => decide
  | [a] =>
    rw [Op.from_str_single]
    by_cases h : opAlpha a = true <;> simp [h, exceptIsOk]
  | [a, b] =>
    rw [Op.from_str_double]
    by_cases ha : opAlpha a = true <;> by_cases hb : opAlpha b = true <;>
      simp [ha, hb, exceptIsOk]
  | a :: b :: c :: t =>
    rw [Op.from_str_long]
    have h2 : ¬((a :: b :: c :: t).length ≤ 2) := by simp
    simp [exceptIsOk, h2]

/-- C5: `Constraint::from_str` fails on `1.2.3`, `foo`, `=`, `= `, ` 1`;
it fails whenever the maximal leading operator run is empty or the
trimmed remainder is empty, and both parts of a successfully parsed
constraint are non-empty. -/
theorem constraint_parse_failures :
    (["1.2.3", "foo", "=", "= ", " 1"].all
      (fun s => !(exceptIsOk (Constraint.from_str s.toList)))) = true
    ∧ (∀ s : Str, s.takeWhile isOpChar = [] ∨ trimList (s.dropWhile isOpChar) = [] →
        Constraint.from_str s = .error ⟨s⟩)
    ∧ (∀ s c, Constraint.from_str s = .ok c →
        s.takeWhile isOpChar ≠ [] ∧ c.op ≠ Op.none ∧ c.version ≠ []) := by
  refine ⟨by decide, ?_, ?_⟩
  · intro s h
    simp only [Constraint.from_str]
    split_ifs with h1 h2
    · rfl
    · rfl
    · exfalso
      apply h2
      rcases h with h | h
      · left; rw [h]; rfl
      · right; rw [h]; rfl
  · intro s c h
    simp only [Constraint.from_str] at h
    split_ifs at h with h1 h2
    rw [not_or] at h2
    obtain ⟨h2l, h2r⟩ := h2
    cases hop : Op.from_str (trimList (List.takeWhile isOpChar s)) with
    | error e =>
      rw [hop] at h
      exact Except.noConfusion h
    | ok o =>
      rw [hop] at h
      simp only [Except.map] at h
      injection h with h3
      refine ⟨?_, ?_, ?_⟩
      · intro hemp
        apply h2l
        rw [hemp]
        rfl
      · rw [← h3]
        exact Op.from_str_ok_ne_none _ _ hop
      · rw [← h3]
        simp only [List.isEmpty_iff] at h2r
        simpa using h2r

/-! ## List and character-class helper lemmas for the round-trip claim -/

theorem takeWhile_append_of_all {p : Char → Bool} (xs ys : Str)
    (h : ∀ x ∈ xs, p x = true) :
    (xs ++ ys).takeWhile p = xs ++ ys.takeWhile p := by
  induction xs with
  | nil => simp
  | cons a l ih =>
    have ha : p a = true := h a (by simp)
    simp only [List.cons_append, List.takeWhile_cons_of_pos ha]
    rw [ih (fun x hx => h x (by simp [hx]))]

theorem dropWhile_append_of_all {p : Char → Bool} (xs ys : Str)
    (h : ∀ x ∈ xs, p x = true) :
    (xs ++ ys).dropWhile p = ys.dropWhile p := by
  induction xs with
  | nil => simp
  | cons a l ih =>
    have ha : p a = true := h a (by simp)
    simp only [List.cons_append, List.dropWhile_cons_of_pos ha]
    exact ih (fun x hx => h x (by simp [hx]))

theorem takeWhile_eq_self_of_all {p : Char → Bool} (l : Str)
    (h : ∀ x ∈ l, p x = true) : l.takeWhile p = l := by
  have := takeWhile_append_of_all l [] h
  simpa using this

theorem dropWhile_eq_nil_of_all {p : Char → Bool} (l : Str)
    (h : ∀ x ∈ l, p x = true) : l.dropWhile p = [] := by
  have := dropWhile_append_of_all l [] h
  simpa using this

theorem dropWhile_eq_self_of_all_neg {p : Char → Bool} (l : Str)
    (h : ∀ c ∈ l, p c = false) : l.dropWhile p = l := by
  cases l with
  | nil => rfl
  | cons a t => exact List.dropWhile_cons_of_neg (by simp [h a (by simp)])

theorem trimList_eq_self (l : Str) (h : ∀ c ∈ l, isWsChar c = false) :
    trimList l = l := by
  unfold trimList
  rw [dropWhile_eq_self_of_all_neg l h,
    dropWhile_eq_self_of_all_neg l.reverse (fun c hc => h c (List.mem_reverse.mp hc)),
    List.reverse_reverse]

theorem trimList_cons_ws (c : Char) (l : Str) (h : isWsChar c = true) :
    trimList (c :: l) = trimList l := by
  unfold trimList
  rw [List.dropWhile_cons_of_pos h]

theorem splitOnceChar_eq_none (c : Char) (l : Str) (h : ∀ x ∈ l, x ≠ c) :
    splitOnceChar c l = Option.none := by
  induction l with
  | nil => rfl
  | cons a t ih =>
    rw [splitOnceChar, if_neg (h a (by simp)), ih (fun x hx => h x (by simp [hx]))]
    rfl

theorem splitOnceChar_append (c : Char) (pre suf : Str) (h : ∀ x ∈ pre, x ≠ c) :
    splitOnceChar c (pre ++ c :: suf) = some (pre, suf) := by
  induction pre with
  | nil => simp [splitOnceChar]
  | cons a t ih =>
    have hrec := ih (fun x hx => h x (by simp [hx]))
    simp only [List.cons_append, splitOnceChar]
    rw [if_neg (h a (by simp))]
    simp [List.append_eq, hrec]

theorem providerChar_spec (c : Char) (h : providerChar c = true) :
    isOpChar c = false ∧ c ≠ '@' ∧ c ≠ '!' := by
  refine ⟨?_, ?_, ?_⟩
  · cases hc : isOpChar c
    · rfl
    · exfalso
      have : ((c = '<' ∨ c = '>') ∨ c = '=') ∨ c = '~' := by simpa [isOpChar] using hc
      rcases this with ((rfl | rfl) | rfl) | rfl <;> exact absurd h (by decide)
  · rintro rfl; exact absurd h (by decide)
  · rintro rfl; exact absurd h (by decide)

theorem versionChar_spec (c : Char) (h : versionChar c = true) :
    isOpChar c = false ∧ c ≠ '@' ∧ isWsChar c = false := by
  refine ⟨?_, ?_, ?_⟩
  · cases hc : isOpChar c
    · rfl
    · exfalso
      have : ((c = '<' ∨ c = '>') ∨ c = '=') ∨ c = '~' := by simpa [isOpChar] using hc
      rcases this with ((rfl | rfl) | rfl) | rfl <;> exact absurd h (by decide)
  · rintro rfl; exact absurd h (by decide)
  · cases hw : isWsChar c
    · rfl
    · exfalso
      have : ((c = ' ' ∨ c = '\t') ∨ c = '\r') ∨ c = '\n' := by
        simpa [isWsChar, Char.isWhitespace] using hw
      rcases this with ((rfl | rfl) | rfl) | rfl <;> exact absurd h (by decide)

theorem isOpChar_spec (c : Char) (h : isOpChar c = true) :
    c ≠ '@' ∧ isWsChar c = false ∧ c ≠ '!' ∧ c ≠ '*' := by
  have : ((c = '<' ∨ c = '>') ∨ c = '=') ∨ c = '~' := by simpa [isOpChar] using h
  rcases this with ((rfl | rfl) | rfl) | rfl <;>
    exact ⟨by decide, by decide, by decide, by decide⟩

theorem constraintOps_spec (o : Op) (h : constraintOps.contains o = true) :
    Op.from_str (Op.toStr o) = .ok o
    ∧ (Op.toStr o).all isOpChar = true ∧ Op.toStr o ≠ [] := by
  have hm : o ∈ constraintOps := by simpa using h
  fin_cases hm <;> exact ⟨by decide, by decide, by decide⟩

/-- Parsing the rendered constraint text: both the `Display` form
`<op><version>` and the mapping form `<op> <version>` recover the
constraint, for a valid operator and version. -/
theorem constraint_parse_rt (o : Op) (ver : Str)
    (hop : constraintOps.contains o = true)
    (hver : ver ≠ []) (hvc : ∀ c ∈ ver, versionChar c = true) :
    Constraint.from_str (Op.toStr o ++ ver) = .ok ⟨o, ver⟩
    ∧ Constraint.from_str (Op.toStr o ++ ' ' :: ver) = .ok ⟨o, ver⟩ := by
  obtain ⟨hrt, hall, hne⟩ := constraintOps_spec o hop
  have hallop : ∀ c ∈ Op.toStr o, isOpChar c = true := fun c hc =>
    List.all_eq_true.mp hall c hc
  have hopws : ∀ c ∈ Op.toStr o, isWsChar c = false := fun c hc =>
    (isOpChar_spec c (hallop c hc)).2.1
  have hvOp : ∀ c ∈ ver, isOpChar c = false := fun c hc =>
    (versionChar_spec c (hvc c hc)).1
  have hvWs : ∀ c ∈ ver, isWsChar c = false := fun c hc =>
    (versionChar_spec c (hvc c hc)).2.2
  obtain ⟨v0, vt, rfl⟩ : ∃ a t, ver = a :: t := by
    cases ver with
    | nil => exact absurd rfl hver
    | cons a t => exact ⟨a, t, rfl⟩
  have hv0 : isOpChar v0 = false := hvOp v0 (by simp)
  have htrimOp : trimList (Op.toStr o) = Op.toStr o := trimList_eq_self _ hopws
  have htrimV : trimList (v0 :: vt) = v0 :: vt := trimList_eq_self _ hvWs
  have hopne : (Op.toStr o).isEmpty = false := by
    cases hcs : Op.toStr o with
    | nil => exact absurd hcs hne
    | cons a t => rfl
  constructor
  · have hnotall : ¬((Op.toStr o ++ v0 :: vt).all isOpChar = true) := by
      intro hc
      have := List.all_eq_true.mp hc v0 (by simp)
      rw [hv0] at this
      exact Bool.noConfusion this
    have ht : (Op.toStr o ++ v0 :: vt).takeWhile isOpChar = Op.toStr o := by
      rw [takeWhile_append_of_all _ _ hallop, List.takeWhile_cons_of_neg (by simp [hv0])]
      simp
    have hd : (Op.toStr o ++ v0 :: vt).dropWhile isOpChar = v0 :: vt := by
      rw [dropWhile_append_of_all _ _ hallop]
      exact List.dropWhile_cons_of_neg (by simp [hv0])
    simp only [Constraint.from_str, ht, hd, htrimOp, htrimV]
    rw [if_neg hnotall, if_neg (by simp [hopne]), hrt]
    rfl
  · have hnotall : ¬((Op.toStr o ++ ' ' :: v0 :: vt).all isOpChar = true) := by
      intro hc
      have := List.all_eq_true.mp hc ' ' (by simp)
      exact Bool.noConfusion this
    have ht : (Op.toStr o ++ ' ' :: v0 :: vt).takeWhile isOpChar = Op.toStr o := by
      rw [takeWhile_append_of_all _ _ hallop, List.takeWhile_cons_of_neg (by decide)]
      simp
    have hd : (Op.toStr o ++ ' ' :: v0 :: vt).dropWhile isOpChar = ' ' :: v0 :: vt := by
      rw [dropWhile_append_of_all _ _ hallop]
      exact List.dropWhile_cons_of_neg (by decide)
    have htrimSp : trimList (' ' :: v0 :: vt) = v0 :: vt := by
      rw [trimList_cons_ws ' ' _ (by decide), htrimV]
    simp only [Constraint.from_str, ht, hd, htrimOp, htrimSp]
    rw [if_neg hnotall, if_neg (by simp [hopne]), hrt]
    rfl

/-- Evaluates `Dependency::from_str` on a rendered token
`[!]name X [@pin]`, where the name is `@`-free, operator-free and does
not start with `!`, and `X` is either empty or an operator-headed,
`@`-free constraint text. -/
theorem dep_from_str_eval (conflict : Bool) (n0 : Char) (nt X : Str) (pin : Option Str)
    (hnAt : ∀ c ∈ n0 :: nt, c ≠ '@')
    (hnNotOp : ∀ c ∈ n0 :: nt, (!isOpChar c) = true)
    (hnBang : n0 ≠ '!')
    (hXat : ∀ c ∈ X, c ≠ '@')
    (hXshape : X = [] ∨ ∃ x0 xt, X = x0 :: xt ∧ isOpChar x0 = true) :
    Dependency.from_str (((if conflict then ['!'] else []) ++ (n0 :: nt) ++ X)
        ++ (match pin with | some p => '@' :: p | Option.none => []))
      = (if X.isEmpty then Except.ok Option.none
         else (Constraint.from_str X).map some).map
          (fun cst => ⟨n0 :: nt, cst, conflict, pin⟩) := by
  have hmAt : ∀ c ∈ (if conflict then (['!'] : Str) else []), c ≠ '@' := by
    cases conflict <;> intro c hc <;> simp at hc
    subst hc; decide
  have hmNotOp : ∀ c ∈ (if conflict then (['!'] : Str) else []), (!isOpChar c) = true := by
    cases conflict <;> intro c hc <;> simp at hc
    subst hc; decide
  have hpreAt : ∀ c ∈ (if conflict then (['!'] : Str) else []) ++ (n0 :: nt) ++ X, c ≠ '@' := by
    intro c hc
    rcases List.mem_append.mp hc with hc | hc
    · rcases List.mem_append.mp hc with hc | hc
      · exact hmAt c hc
      · exact hnAt c hc
    · exact hXat c hc
  have hnp : ((if conflict then (['!'] : Str) else []) ++ (n0 :: nt) ++ X).takeWhile
      (fun c => !isOpChar c) = (if conflict then (['!'] : Str) else []) ++ (n0 :: nt) := by
    rw [List.append_assoc, takeWhile_append_of_all _ _ hmNotOp,
      takeWhile_append_of_all _ _ hnNotOp]
    rcases hXshape with rfl | ⟨x0, xt, rfl, hx0⟩
    · simp
    · rw [List.takeWhile_cons_of_neg (by simp [hx0])]
      simp
  have hrest : ((if conflict then (['!'] : Str) else []) ++ (n0 :: nt) ++ X).dropWhile
      (fun c => !isOpChar c) = X := by
    rw [List.append_assoc, dropWhile_append_of_all _ _ hmNotOp,
      dropWhile_append_of_all _ _ hnNotOp]
    rcases hXshape with rfl | ⟨x0, xt, rfl, hx0⟩
    · simp
    · exact List.dropWhile_cons_of_neg (by simp [hx0])
  cases pin with
  | none =>
    have hsplit : splitOnceChar '@'
        ((if conflict then (['!'] : Str) else []) ++ (n0 :: nt) ++ X) = Option.none :=
      splitOnceChar_eq_none '@' _ hpreAt
    simp only [Dependency.from_str, List.append_nil, hsplit, hnp, hrest]
    cases hE : (if X.isEmpty then Except.ok Option.none
        else (Constraint.from_str X).map some) with
    | error e => rfl
    | ok v =>
      simp only [Except.map]
      cases conflict <;> simp [hnBang]
  | some p =>
    have hsplit : splitOnceChar '@'
        (((if conflict then (['!'] : Str) else []) ++ (n0 :: nt) ++ X) ++ '@' :: p)
        = some ((if conflict then (['!'] : Str) else []) ++ (n0 :: nt) ++ X, p) :=
      splitOnceChar_append '@' _ p hpreAt
    simp only [Dependency.from_str, hsplit, hnp, hrest]
    cases hE : (if X.isEmpty then Except.ok Option.none
        else (Constraint.from_str X).map some) with
    | error e => rfl
    | ok v =>
      simp only [Except.map]
      cases conflict <;> simp [hnBang]

/-- C1: for every valid `Dependency` value `d`, decoding the mapping
pair produced by `to_key_value` yields `d` with `repo_pin` dropped (the
mapping form does not carry it), and parsing the `Display`-formatted
sequence token yields `d` exactly, `repo_pin` included. -/
theorem dependency_roundtrip_valid (d : Dependency) (h : d.valid = true) :
    Dependency.from_key_value d.to_key_value.1 d.to_key_value.2
      = .ok { d with repo_pin := Option.none }
    ∧ Dependency.from_str d.toStr = .ok d := by
  obtain ⟨name, cst, conflict, pin⟩ := d
  simp only [Dependency.valid, Bool.and_eq_true] at h
  obtain ⟨⟨hne, hprov⟩, hcst⟩ := h
  have hnameAll : ∀ c ∈ name, providerChar c = true := List.all_eq_true.mp hprov
  obtain ⟨n0, nt, rfl⟩ : ∃ a t, name = a :: t := by
    cases name with
    | nil => exact absurd hne (by decide)
    | cons a t => exact ⟨a, t, rfl⟩
  have hnAt : ∀ c ∈ n0 :: nt, c ≠ '@' := fun c hc =>
    (providerChar_spec c (hnameAll c hc)).2.1
  have hnBang : n0 ≠ '!' := (providerChar_spec n0 (hnameAll n0 (by simp))).2.2
  have hnNotOp : ∀ c ∈ n0 :: nt, (!isOpChar c) = true := fun c hc => by
    rw [(providerChar_spec c (hnameAll c hc)).1]
    rfl
  cases cst with
  | none =>
    constructor
    · cases conflict <;> simp [Dependency.to_key_value, Dependency.from_key_value]
    · have heval := dep_from_str_eval conflict n0 nt [] pin hnAt hnNotOp hnBang
        (by simp) (Or.inl rfl)
      have hts : Dependency.toStr ⟨n0 :: nt, Option.none, conflict, pin⟩
          = (((if conflict then ['!'] else []) ++ (n0 :: nt) ++ [])
             ++ (match pin with | some p => '@' :: p | Option.none => [])) := by
        cases pin <;> simp [Dependency.toStr]
      rw [hts, heval]
      rfl
  | some c =>
    obtain ⟨o, ver⟩ := c
    simp only [Constraint.valid, Bool.and_eq_true] at hcst
    obtain ⟨⟨hop, hvne⟩, hvall⟩ := hcst
    have hverNe : ver ≠ [] := by
      cases hv : ver with
      | nil => rw [hv] at hvne; exact absurd hvne (by decide)
      | cons a t => simp
    have hvc : ∀ ch ∈ ver, versionChar ch = true := List.all_eq_true.mp hvall
    obtain ⟨hrtA, hrtB⟩ := constraint_parse_rt o ver hop hverNe hvc
    obtain ⟨hopstr, hallop, hopne⟩ := constraintOps_spec o hop
    obtain ⟨o0, ot, hto⟩ : ∃ a t, Op.toStr o = a :: t := by
      cases hts : Op.toStr o with
      | nil => exact absurd hts hopne
      | cons a t => exact ⟨a, t, rfl⟩
    have ho0 : isOpChar o0 = true := List.all_eq_true.mp hallop o0 (by rw [hto]; simp)
    constructor
    · -- mapping round trip
      have hVhead : (Op.toStr o ++ ' ' :: ver).head? = some o0 := by rw [hto]; rfl
      have hVne : ¬(Op.toStr o ++ ' ' :: ver = ['*']) := by
        rw [hto]
        intro hcon
        simp at hcon
      have hVbang : ¬((Op.toStr o ++ ' ' :: ver).head? = some '!') := by
        rw [hVhead]
        intro hcon
        injection hcon with hcon
        exact (isOpChar_spec o0 ho0).2.2.1 hcon
      have hVtailne : ¬(Op.toStr o ++ ' ' :: ver = []) := by
        rw [hto]
        simp
      cases conflict
      case false =>
        simp only [Dependency.to_key_value, Dependency.from_key_value]
        rw [if_neg hVbang, if_neg hVne, hrtB]
        rfl
      case true =>
        simp only [Dependency.to_key_value, Dependency.from_key_value]
        have h1 : (('!' :: (Op.toStr o ++ ' ' :: ver)).head? = some '!') := rfl
        rw [if_pos h1]
        have h2 : ('!' :: (Op.toStr o ++ ' ' :: ver)).tail = Op.toStr o ++ ' ' :: ver := rfl
        rw [h2, if_neg hVtailne, hrtB]
        rfl
    · -- sequence round trip
      have hXat : ∀ ch ∈ Op.toStr o ++ ver, ch ≠ '@' := by
        intro ch hc
        rcases List.mem_append.mp hc with hc | hc
        · exact (isOpChar_spec ch (List.all_eq_true.mp hallop ch hc)).1
        · exact (versionChar_spec ch (hvc ch hc)).2.1
      have hXshape : (Op.toStr o ++ ver) = [] ∨
          ∃ x0 xt, (Op.toStr o ++ ver) = x0 :: xt ∧ isOpChar x0 = true :=
        Or.inr ⟨o0, ot ++ ver, by rw [hto]; simp, ho0⟩
      have hts2 : Dependency.toStr ⟨n0 :: nt, some ⟨o, ver⟩, conflict, pin⟩
          = (((if conflict then ['!'] else []) ++ (n0 :: nt) ++ (Op.toStr o ++ ver))
             ++ (match pin with | some p => '@' :: p | Option.none => [])) := by
        cases pin <;> simp [Dependency.toStr, Constraint.toStr, List.append_assoc]
      have heval := dep_from_str_eval conflict n0 nt (Op.toStr o ++ ver) pin
        hnAt hnNotOp hnBang hXat hXshape
      rw [hts2, heval]
      have hXne : ¬((Op.toStr o ++ ver).isEmpty = true) := by
        rw [hto]
        simp
      rw [if_neg hXne, hrtA]
      rfl

/-- Concrete valid dependency used by the round-trip witness. -/
def depExample : Dependency :=
  ⟨"ruby".toList, some ⟨Op.Greater.or Op.Equal, "3.0".toList⟩, false, some "testing".toList⟩

/-- Witness for C1 at a concrete valid dependency. -/
theorem dependency_roundtrip_valid_witness :
    depExample.valid = true
    ∧ Dependency.from_key_value depExample.to_key_value.1 depExample.to_key_value.2
        = .ok { depExample with repo_pin := Option.none }
    ∧ Dependency.from_str depExample.toStr = .ok depExample :=
  ⟨by decide, (dependency_roundtrip_valid depExample (by decide)).1,
    (dependency_roundtrip_valid depExample (by decide)).2⟩

/-- Witness for C5 at the concrete input ` 1`. -/
theorem constraint_parse_failures_witness :
    (" 1".toList.takeWhile isOpChar = [] ∨ trimList (" 1".toList.dropWhile isOpChar) = [])
    ∧ Constraint.from_str " 1".toList = .error ⟨" 1".toList⟩ :=
  ⟨Or.inl (by decide), constraint_parse_failures.2.1 " 1".toList (Or.inl (by decide))⟩

/-! ## The missing-field policy (C4) -/

theorem groupAux_any (P : Str → Bool) (l : List (Str × Str)) :
    ∀ k v run, (groupAux k v run l).any (fun g => P g.1)
      = (P k || l.any (fun kv => P kv.1)) := by
  induction l with
  | nil =>
    intro k v run
    rw [show groupAux k v run [] = [(k, RawValue.ofRun v run.reverse)] from rfl]
    simp
  | cons p rest ih =>
    intro k v run
    obtain ⟨k2, v2⟩ := p
    by_cases hk : k2 = k
    · subst hk
      rw [show groupAux k2 v run ((k2, v2) :: rest) = groupAux k2 v (v2 :: run) rest from by
        rw [groupAux, if_pos rfl]]
      rw [ih]
      simp only [List.any_cons]
      cases hP : P k2 <;> simp [hP]
    · rw [show groupAux k v run ((k2, v2) :: rest)
          = (k, RawValue.ofRun v run.reverse) :: groupAux k2 v2 [] rest from by
        rw [groupAux, if_neg hk]]
      simp [List.any_cons, ih]

theorem groupPairs_any (P : Str → Bool) (pairs : List (Str × Str)) :
    (groupPairs pairs).any (fun g => P g.1) = pairs.any (fun kv => P kv.1) := by
  cases pairs with
  | nil => rfl
  | cons p rest =>
    obtain ⟨k, v⟩ := p
    rw [groupPairs, groupAux_any]
    simp [List.any_cons]

theorem find?_cons_pos {α : Type} (p : α → Bool) (a : α) (l : List α)
    (h : p a = true) : (a :: l).find? p = some a :=
  List.find?_cons_of_pos l h

theorem find?_cons_neg {α : Type} (p : α → Bool) (a : α) (l : List α)
    (h : p a = false) : (a :: l).find? p = l.find? p :=
  List.find?_cons_of_neg l (by simp [h])

theorem lookupF_append_single (st : FieldState) (x : Str) (v : FieldVal) (n : Str) :
    ((st ++ [(x, v)]).lookupF n).isSome
      = ((st.lookupF n).isSome || decide (x = n)) := by
  induction st with
  | nil =>
    by_cases hx : x = n <;> simp [FieldState.lookupF, List.find?, hx]
  | cons p t ih =>
    simp only [FieldState.lookupF] at ih ⊢
    by_cases hp : p.1 = n
    · rw [List.cons_append,
        find?_cons_pos (fun q => decide (q.1 = n)) p _ (by simp [hp]),
        find?_cons_pos (fun q => decide (q.1 = n)) p _ (by simp [hp])]
      simp
    · rw [List.cons_append,
        find?_cons_neg (fun q => decide (q.1 = n)) p _ (by simp [hp]),
        find?_cons_neg (fun q => decide (q.1 = n)) p _ (by simp [hp])]
      exact ih

theorem find?_congr_bool {α : Type} (p q : α → Bool) (l : List α)
    (h : ∀ a, p a = q a) : l.find? p = l.find? q := by
  induction l with
  | nil => rfl
  | cons a t ih =>
    by_cases hp : p a = true
    · rw [find?_cons_pos p a t hp, find?_cons_pos q a t (by rw [← h a]; exact hp)]
    · rw [Bool.not_eq_true] at hp
      rw [find?_cons_neg p a t hp, find?_cons_neg q a t (by rw [← h a]; exact hp)]
      exact ih

/-- Field-state/input correspondence of the visit-map loop: after a
successful pass, a field is assigned exactly when it was assigned
initially or some consumed group's key names it. -/
theorem visitGroups_ok_lookup (specs : List FieldSpec) (gs : List (Str × RawValue)) :
    ∀ st0 st, visitGroups specs st0 gs = .ok st →
    ∀ n, (st.lookupF n).isSome
      = ((st0.lookupF n).isSome || gs.any (fun g => keyNamesField specs g.1 n)) := by
  induction gs with
  | nil =>
    intro st0 st h n
    simp only [visitGroups] at h
    injection h with h
    subst h
    simp
  | cons g rest ih =>
    intro st0 st h n
    obtain ⟨k, raw⟩ := g
    simp only [visitGroups] at h
    cases hf : fieldForKey specs k with
    | none =>
      rw [hf] at h
      dsimp only at h
      rw [ih st0 st h n]
      simp [List.any_cons, keyNamesField, hf]
    | some f =>
      rw [hf] at h
      dsimp only at h
      by_cases hdup : ((st0.lookupF f.name).isSome = true)
      · rw [if_pos hdup] at h
        exact Except.noConfusion h
      · rw [if_neg hdup] at h
        cases hd : (decodeValue f.ty raw).mapError (rewrapErr k) with
        | error e =>
          rw [hd] at h
          dsimp only at h
          exact Except.noConfusion h
        | ok v =>
          rw [hd] at h
          dsimp only at h
          rw [ih (st0 ++ [(f.name, v)]) st h n, lookupF_append_single]
          simp only [List.any_cons, keyNamesField, hf]
          cases hs : (st0.lookupF n).isSome <;> simp [Bool.or_assoc]

theorem finishFields_first_missing (st : FieldState) (f0 : FieldSpec) :
    ∀ specs : List FieldSpec,
      specs.find? (fun f => f.dflt.isNone && !(st.lookupF f.name).isSome) = some f0 →
      finishFields specs st = .error (KvError.MissingField f0.name) := by
  intro specs
  induction specs with
  | nil =>
    intro h
    simp [List.find?] at h
  | cons f rest ih =>
    intro h
    by_cases hp : (f.dflt.isNone && !(st.lookupF f.name).isSome) = true
    · rw [find?_cons_pos (fun f => f.dflt.isNone && !(st.lookupF f.name).isSome)
        f rest hp] at h
      injection h with h
      subst h
      simp only [Bool.and_eq_true] at hp
      have hl : st.lookupF f.name = Option.none := by
        cases hv : st.lookupF f.name
        · rfl
        · rw [hv] at hp
          exact absurd hp.2 (by simp)
      have hd : f.dflt = Option.none := by
        cases hv : f.dflt
        · rfl
        · rw [hv] at hp
          exact absurd hp.1 (by simp)
      simp [finishFields, hl, hd]
    · rw [Bool.not_eq_true] at hp
      rw [find?_cons_neg (fun f => f.dflt.isNone && !(st.lookupF f.name).isSome)
        f rest hp] at h
      cases hl : st.lookupF f.name with
      | some v => simp [finishFields, hl, ih h, Except.map]
      | none =>
        cases hd : f.dflt with
        | some d => simp [finishFields, hl, hd, ih h, Except.map]
        | none =>
          rw [hd, hl] at hp
          simp at hp

/-- C4 (amended): when all present field groups decode successfully, a
pair stream lacking a key for some required field fails with
`MissingField` naming the first such field in declaration order. -/
theorem missing_field_first_in_declaration_order (pairs : List (Str × Str))
    (st : FieldState) (n : Str)
    (h1 : visitGroups pkgInfoFields [] (groupPairs pairs) = .ok st)
    (h2 : firstMissingRequired pkgInfoFields pairs = some n) :
    from_ordered_pairs pkgInfoFields pairs = .error (.MissingField n) := by
  unfold from_ordered_pairs
  rw [h1]
  show finishFields pkgInfoFields st = .error (.MissingField n)
  unfold firstMissingRequired at h2
  cases hf : pkgInfoFields.find? (fun f =>
      f.dflt.isNone && !(pairs.any (fun kv => keyNamesField pkgInfoFields kv.1 f.name))) with
  | none =>
    rw [hf] at h2
    exact Option.noConfusion h2
  | some f0 =>
    rw [hf] at h2
    injection h2 with h2
    subst h2
    have hcong : pkgInfoFields.find? (fun f =>
          f.dflt.isNone && !(pairs.any (fun kv => keyNamesField pkgInfoFields kv.1 f.name)))
        = pkgInfoFields.find? (fun f => f.dflt.isNone && !(st.lookupF f.name).isSome) := by
      apply find?_congr_bool
      intro f
      have heq := visitGroups_ok_lookup pkgInfoFields (groupPairs pairs) [] st h1 f.name
      rw [groupPairs_any (fun k => keyNamesField pkgInfoFields k f.name) pairs] at heq
      rw [show (FieldState.lookupF [] f.name).isSome = false from rfl] at heq
      simp only [Bool.false_or] at heq
      rw [heq]
    rw [hcong] at hf
    exact finishFields_first_missing st f0 pkgInfoFields hf

/-- Witness for the amended C4: `[(pkgname, foo)]` decodes its one group
and then fails with `MissingField pkgver`, the first required field in
declaration order without a key. -/
theorem missing_field_first_in_declaration_order_witness :
    visitGroups pkgInfoFields [] (groupPairs [("pkgname".toList, "foo".toList)])
      = .ok [("pkgname".toList, .str "foo".toList)]
    ∧ firstMissingRequired pkgInfoFields [("pkgname".toList, "foo".toList)]
      = some "pkgver".toList
    ∧ from_ordered_pairs pkgInfoFields [("pkgname".toList, "foo".toList)]
      = .error (.MissingField "pkgver".toList) :=
  ⟨by decide, by decide,
    missing_field_first_in_declaration_order [("pkgname".toList, "foo".toList)]
      [("pkgname".toList, .str "foo".toList)] "pkgver".toList (by decide) (by decide)⟩

/-! ## The line producer (C8) -/

theorem splitOnceStr_eq_append (sep : Str) :
    ∀ l a b, splitOnceStr sep l = some (a, b) → l = a ++ sep ++ b := by
  intro l
  induction l with
  | nil =>
    intro a b h
    rw [splitOnceStr] at h
    by_cases hs : sep.isPrefixOf ([] : Str) = true
    · rw [if_pos hs] at h
      injection h with h
      injection h with h1 h2
      subst h1
      subst h2
      have hsep : sep = [] := by
        rw [ List.isPrefixOf_iff_prefix] at hs
        simpa using hs
      simp [hsep]
    · rw [if_neg hs] at h
      exact Option.noConfusion h
  | cons x xs ih =>
    intro a b h
    rw [splitOnceStr] at h
    by_cases hs : sep.isPrefixOf (x :: xs) = true
    · rw [if_pos hs] at h
      injection h with h
      injection h with h1 h2
      subst h1
      subst h2
      rw [ List.isPrefixOf_iff_prefix] at hs
      obtain ⟨t, ht⟩ := hs
      rw [← ht, List.drop_left]
      simp
    · rw [if_neg hs] at h
      cases hrec : splitOnceStr sep xs with
      | none =>
        rw [hrec] at h
        exact Option.noConfusion h
      | some p =>
        obtain ⟨p1, p2⟩ := p
        rw [hrec] at h
        simp only [Option.map] at h
        injection h with h
        injection h with h1 h2
        subst h1
        subst h2
        have := ih p1 p2 hrec
        simp [this]

theorem splitOnceStr_minimal (sep : Str) :
    ∀ l a b, splitOnceStr sep l = some (a, b) →
    ∀ a' b', l = a' ++ sep ++ b' → a.length ≤ a'.length := by
  intro l
  induction l with
  | nil =>
    intro a b h a' b' he
    rw [splitOnceStr] at h
    by_cases hs : sep.isPrefixOf ([] : Str) = true
    · rw [if_pos hs] at h
      injection h with h
      injection h with h1 h2
      subst h1
      simp
    · rw [if_neg hs] at h
      exact Option.noConfusion h
  | cons x xs ih =>
    intro a b h a' b' he
    rw [splitOnceStr] at h
    by_cases hs : sep.isPrefixOf (x :: xs) = true
    · rw [if_pos hs] at h
      injection h with h
      injection h with h1 h2
      subst h1
      simp
    · rw [if_neg hs] at h
      cases hrec : splitOnceStr sep xs with
      | none =>
        rw [hrec] at h
        exact Option.noConfusion h
      | some p =>
        obtain ⟨p1, p2⟩ := p
        rw [hrec] at h
        simp only [Option.map] at h
        injection h with h
        injection h with h1 h2
        subst h1
        cases a' with
        | nil =>
          exfalso
          apply hs
          rw [ List.isPrefixOf_iff_prefix]
          refine ⟨b', ?_⟩
          simpa using he.symm
        | cons y a1 =>
          have hx : x = y ∧ xs = a1 ++ sep ++ b' := by
            have : x :: xs = y :: (a1 ++ sep ++ b') := by simpa using he
            exact ⟨by injection this, by injection this⟩
          simp only [List.length_cons]
          exact Nat.succ_le_succ (ih p1 p2 hrec a1 b' hx.2)

theorem collectPairs_first_error (e : PkgInfoError) :
    ∀ pre rest, (∀ x ∈ pre, exceptIsOk x = true) →
    collectPairs (pre ++ .error e :: rest) = .error e := by
  intro pre
  induction pre with
  | nil =>
    intro rest h
    rfl
  | cons x pr ih =>
    intro rest h
    cases x with
    | error e2 =>
      have := h (.error e2) (by simp)
      exact absurd this (by simp [exceptIsOk])
    | ok kv =>
      rw [List.cons_append, collectPairs, ih rest (fun x hx => h x (by simp [hx]))]
      rfl

theorem parseLine_of_skip (lno : Nat) (l : Str) (h : skipLine l = true) :
    parseLine lno l = Option.none := by
  unfold skipLine at h
  rw [Bool.or_eq_true] at h
  unfold parseLine
  rcases h with h | h
  · rw [if_pos h]
  · by_cases he : l.isEmpty = true
    · rw [if_pos he]
    · rw [if_neg he, if_pos (by simpa using h)]

theorem parseLine_of_sep (lno : Nat) (l : Str) (a b : Str)
    (hskip : skipLine l = false) (hsp : splitOnceStr sepEq l = some (a, b)) :
    parseLine lno l = some (.ok (a, b)) := by
  unfold skipLine at hskip
  rw [Bool.or_eq_false_iff] at hskip
  unfold parseLine
  rw [if_neg (by simp [hskip.1]), if_neg (by simpa using hskip.2), hsp]

theorem parseLine_of_bad (lno : Nat) (l : Str) (h : isBadLine l = true) :
    parseLine lno l = some (.error (.Syntax (lno + 1) l)) := by
  unfold isBadLine at h
  rw [Bool.and_eq_true] at h
  obtain ⟨hskip, hsep⟩ := h
  rw [Bool.not_eq_true'] at hskip
  unfold skipLine at hskip
  rw [Bool.or_eq_false_iff] at hskip
  unfold parseLine
  rw [if_neg (by simp [hskip.1]), if_neg (by simpa using hskip.2)]
  cases hsp : splitOnceStr sepEq l with
  | none => rfl
  | some p =>
    rw [hsp] at hsep
    exact absurd hsep (by simp)

theorem parse_error_at_first_bad :
    ∀ (ls : List Str) (k i : Nat) (line : Str),
      ls[i]? = some line →
      ((ls.take i).all (fun l => !isBadLine l)) = true →
      isBadLine line = true →
      ∃ pre rest,
        (List.enumFrom k ls).filterMap (fun p => parseLine p.1 p.2)
          = pre ++ .error (.Syntax (k + i + 1) line) :: rest
        ∧ ∀ x ∈ pre, exceptIsOk x = true := by
  intro ls
  induction ls with
  | nil =>
    intro k i line h
    simp at h
  | cons l ls' ih =>
    intro k i line hline hgood hbad
    cases i with
    | zero =>
      rw [show (l :: ls')[0]? = some l from by simp] at hline
      injection hline with hline
      subst hline
      refine ⟨[], (List.enumFrom (k + 1) ls').filterMap (fun p => parseLine p.1 p.2), ?_, by simp⟩
      rw [List.enumFrom, List.filterMap_cons, parseLine_of_bad k l hbad]
      simp
    | succ j =>
      have hl0 : isBadLine l = false := by
        rw [List.take_succ_cons, List.all_cons, Bool.and_eq_true] at hgood
        have := hgood.1
        rw [Bool.not_eq_true'] at this
        exact this
      have hgood' : ((ls'.take j).all (fun l => !isBadLine l)) = true := by
        rw [List.take_succ_cons, List.all_cons, Bool.and_eq_true] at hgood
        exact hgood.2
      have hline' : ls'[j]? = some line := by simpa using hline
      obtain ⟨pre, rest, heq, hok⟩ := ih (k + 1) j line hline' hgood' hbad
      rw [show k + 1 + j + 1 = k + (j + 1) + 1 from by omega] at heq
      by_cases hskip : skipLine l = true
      · refine ⟨pre, rest, ?_, hok⟩
        rw [List.enumFrom, List.filterMap_cons, parseLine_of_skip k l hskip]
        exact heq
      · rw [Bool.not_eq_true] at hskip
        have hnone : (splitOnceStr sepEq l).isNone = false := by
          unfold isBadLine at hl0
          rw [Bool.and_eq_false_iff] at hl0
          rcases hl0 with h | h
          · rw [hskip] at h
            exact absurd h (by simp)
          · exact h
        cases hsp : splitOnceStr sepEq l with
        | none =>
          rw [hsp] at hnone
          exact absurd hnone (by simp)
        | some p =>
          obtain ⟨a, b⟩ := p
          refine ⟨.ok (a, b) :: pre, rest, ?_, ?_⟩
          · rw [List.enumFrom, List.filterMap_cons, parseLine_of_sep k l a b hskip hsp]
            rw [heq]
            rfl
          · intro x hx
            rcases List.mem_cons.mp hx with rfl | hx
            · rfl
            · exact hok x hx

/-- C8: blank lines and `#` comment lines yield no pair; a line with the
`" = "` separator yields exactly the pair split at its first occurrence;
and the first line lacking the separator aborts `PkgInfo::parse` with a
syntax error carrying that line's 1-based number and full text, with no
record decoding. -/
theorem pkginfo_line_producer :
    (∀ lno line, skipLine line = true → parseLine lno line = Option.none)
    ∧ (∀ lno line a b, skipLine line = false →
        splitOnceStr sepEq line = some (a, b) →
        parseLine lno line = some (.ok (a, b))
        ∧ line = a ++ sepEq ++ b
        ∧ ∀ a' b', line = a' ++ sepEq ++ b' → a.length ≤ a'.length)
    ∧ (∀ s i line, (rustLines s)[i]? = some line →
        ((rustLines s).take i).all (fun l => !isBadLine l) = true →
        isBadLine line = true →
        PkgInfo.parse s = .error (.Syntax (i + 1) line)) := by
  refine ⟨parseLine_of_skip, ?_, ?_⟩
  · intro lno line a b hskip hsp
    exact ⟨parseLine_of_sep lno line a b hskip hsp,
      splitOnceStr_eq_append sepEq line a b hsp,
      splitOnceStr_minimal sepEq line a b hsp⟩
  · intro s i line h1 h2 h3
    obtain ⟨pre, rest, heq, hok⟩ := parse_error_at_first_bad (rustLines s) 0 i line h1 h2 h3
    have hpk : parse_key_value s = pre ++ .error (.Syntax (i + 1) line) :: rest := by
      unfold parse_key_value
      rw [show (rustLines s).enum = List.enumFrom 0 (rustLines s) from rfl]
      rw [show (0 : Nat) + i + 1 = i + 1 from by omega] at heq
      exact heq
    unfold PkgInfo.parse
    rw [hpk, collectPairs_first_error _ pre rest hok]
    rfl

/-- Witness for C8: the second line of `a = b\nbad` lacks the separator,
so parsing fails with a syntax error naming line 2 and its text. -/
theorem pkginfo_line_producer_witness :
    isBadLine "bad".toList = true
    ∧ PkgInfo.parse "a = b\nbad".toList = .error (.Syntax 2 "bad".toList) :=
  ⟨by decide,
    pkginfo_line_producer.2.2 "a = b\nbad".toList 1 "bad".toList
      (by decide) (by decide) (by decide)⟩
